import Mathlib

set_option maxRecDepth 20000
set_option linter.unusedVariables false
set_option linter.unnecessarySimpa false

/-!
Shallow embedding of `src/app.py`, a Streamlit dashboard that ingests
Turkish-market RSS feeds, deduplicates and filters the items, and builds a
markdown digest.  Pure helpers of the script are translated directly; calls
into external libraries (`requests`, `feedparser`, `dateutil`, `hashlib`,
`html`) are modelled as documented at each definition.  The source file
stores its Turkish string literals in a double-encoded (mojibake) form; the
embedding reproduces those literals byte for byte via unicode escapes,
because that is the text the program actually manipulates.
-/

/-- The whitespace characters of the regex class `\s` (and of `str.strip`),
restricted to the ASCII whitespace set that the script's data can contain. -/
def isSpaceCh (c : Char) : Bool :=
  c == ' ' || c == '\t' || c == '\n' || c == '\r' || c == '\x0b' || c == '\x0c'

/-- Modelled from Python `html.unescape`, restricted to the named character
references exercised in this development (`amp;`, `lt;`, `gt;`, `quot;`, each
with its trailing semicolon).  An ampersand that does not begin one of these
references is kept verbatim, as `html.unescape` keeps unknown references;
like the library, a decoded replacement is not rescanned. -/
def unescape : List Char → List Char
  | [] => []
  | '&' :: 'a' :: 'm' :: 'p' :: ';' :: r => '&' :: unescape r
  | '&' :: 'l' :: 't' :: ';' :: r => '<' :: unescape r
  | '&' :: 'g' :: 't' :: ';' :: r => '>' :: unescape r
  | '&' :: 'q' :: 'u' :: 'o' :: 't' :: ';' :: r => '\"' :: unescape r
  | c :: rest => c :: unescape rest

/-- State machine for `re.sub(r"<[^>]+>", " ", s)`.  `buf = none` means the
scanner is outside a candidate tag; `buf = some b` means a `<` has been read
and `b` holds (reversed) the characters read since.  A candidate closed by
`>` with a nonempty body is replaced by one space; `<>` (empty body) does not
match the pattern, and an unclosed `<...` at the end of input is emitted
verbatim, exactly as the regex leaves unmatched text untouched. -/
def stripTagsGo (buf : Option (List Char)) : List Char → List Char
  | [] =>
    match buf with
    | none => []
    | some b => '<' :: b.reverse
  | c :: rest =>
    match buf with
    | none =>
      if c = '<' then stripTagsGo (some []) rest
      else c :: stripTagsGo none rest
    | some b =>
      if c = '>' then
        match b with
        | [] => '<' :: '>' :: stripTagsGo none rest
        | _ => ' ' :: stripTagsGo none rest
      else stripTagsGo (some (c :: b)) rest

/-- `re.sub(r"<[^>]+>", " ", s)` from `clean_text`. -/
def stripTags (cs : List Char) : List Char := stripTagsGo none cs

/-- Proof helper: a sufficient syntactic condition for a character list to
be a fixed point of `stripTags`.  Every `<` is either immediately followed
by `>` (the `<>` shape, which `<[^>]+>` cannot match) or is followed by no
`>` at all (an unclosed candidate, which the regex leaves untouched). -/
def tagFree : List Char → Bool
  | [] => true
  | '<' :: '>' :: rest => tagFree rest
  | '<' :: rest => !(rest.contains '>')
  | _ :: rest => tagFree rest

/-- State machine for `re.sub(r"\s+", " ", s)`: each maximal run of
whitespace becomes a single space.  `prev` records whether the previous
character belonged to a whitespace run. -/
def collapseGo (prev : Bool) : List Char → List Char
  | [] => []
  | c :: rest =>
    if isSpaceCh c then
      if prev then collapseGo true rest else ' ' :: collapseGo true rest
    else c :: collapseGo false rest

/-- `re.sub(r"\s+", " ", s)` from `clean_text`. -/
def collapseWs (cs : List Char) : List Char := collapseGo false cs

/-- Leading-whitespace removal, the left half of `str.strip()`. -/
def lstripWs (cs : List Char) : List Char := cs.dropWhile isSpaceCh

/-- Trailing-whitespace removal, the right half of `str.strip()`. -/
def rstripWs : List Char → List Char
  | [] => []
  | c :: rest =>
    match rstripWs rest with
    | [] => if isSpaceCh c then [] else [c]
    | r => c :: r

/-- `str.strip()`: whitespace removed from both ends. -/
def stripWs (cs : List Char) : List Char := rstripWs (lstripWs cs)

/-- `clean_text` (src/app.py:53-57): unescape HTML entities, strip tags to a
space, collapse whitespace runs, strip the ends.  (`s or ""` is the identity
on actual strings, the empty string being its own fixed point.) -/
def clean_text (s : String) : String :=
  ⟨stripWs (collapseWs (stripTags (unescape s.data)))⟩

/-- A timezone-aware instant already converted to the display timezone
(Europe/Istanbul), as produced by `safe_parse_dt`: `date` is the calendar
day in that zone (abstracted to a day number, 1970-01-01 being day 0) and
`sec` the time of day; `datetime.date()` projects the `date` field and
datetime comparison is lexicographic on (date, sec). -/
structure Tm where
  date : Int
  sec : Int

deriving instance DecidableEq for Tm

/-- `datetime(1970, 1, 1, tzinfo=TZ)`, the sort fallback in `build_digest`. -/
def epochTm : Tm := ⟨0, 0⟩

/-- Comparison of display-timezone instants (lexicographic). -/
def tmLe (a b : Tm) : Bool :=
  decide (a.date < b.date) || (a.date == b.date && decide (a.sec ≤ b.sec))

/-- One news item dictionary, as built by `fetch_feed_items`.  `hash` is the
fingerprint field; an absent fingerprint is represented by `""`, which is
exactly the falsy case the code's `it.get("hash") or ...` falls through on. -/
structure Item where
  source : String
  title : String
  link : String
  summary : String
  published : Option Tm
  hash : String
  is_error : Bool

deriving instance DecidableEq for Item

/-- The dedup key of `dedupe` (src/app.py:121):
`it.get("hash") or (it.get("title", "") + it.get("link", ""))`. -/
def keyOf (it : Item) : String :=
  if it.hash = "" then it.title ++ it.link else it.hash

/-- The loop of `dedupe`, with the `seen` set modelled as the list of keys
added so far. -/
def dedupeAux (seen : List String) : List Item → List Item
  | [] => []
  | it :: rest =>
    if keyOf it ∈ seen then dedupeAux seen rest
    else it :: dedupeAux (keyOf it :: seen) rest

/-- `dedupe` (src/app.py:117-126). -/
def dedupe (items : List Item) : List Item := dedupeAux [] items

/-- `filter_today` (src/app.py:128-132).  The call-time expression
`datetime.now(TZ).date()` is passed in as the explicit parameter `today`. -/
def filter_today (today : Int) (items : List Item) (only_today : Bool) :
    List Item :=
  if only_today then
    items.filter fun it =>
      match it.published with
      | none => false
      | some t => t.date == today
  else items

/-- Modelled from Python `str.lower`, restricted to the characters this
program's literals and data exercise: ASCII letters plus the Latin-1 and
Latin-Extended-A uppercase letters occurring in the source's (mojibake)
string constants and in Turkish feed text; all other characters are
unaffected, as they are caseless here. -/
def lowerChar (c : Char) : Char :=
  if 'A' ≤ c ∧ c ≤ 'Z' then Char.ofNat (c.toNat + 32)
  else if c = 'Ã' then 'ã'
  else if c = 'Ä' then 'ä'
  else if c = 'Å' then 'å'
  else if c = 'Ÿ' then 'ÿ'
  else if c = 'Ç' then 'ç'
  else if c = 'Ö' then 'ö'
  else if c = 'Ü' then 'ü'
  else if c = 'Ğ' then 'ğ'
  else if c = 'Ş' then 'ş'
  else c

/-- `str.lower()` on a whole string. -/
def lowerStr (s : String) : String := ⟨s.data.map lowerChar⟩

/-- Membership in the character class of `re.sub(r"[^a-z...0-9\s]", " ", _)`
in `keyword_theme` (src/app.py:136).  The class consists of `a-z`, `0-9`,
whitespace, and the eight distinct characters of the source's (mojibake)
literal `Ã§ÄŸÄ±Ã¶ÅŸÃ¼`. -/
def inThemeClass (c : Char) : Bool :=
  (decide ('a' ≤ c) && decide (c ≤ 'z')) ||
  (decide ('0' ≤ c) && decide (c ≤ '9')) ||
  isSpaceCh c ||
  c == 'Ã' || c == '§' || c == 'Ä' || c == 'Ÿ' ||
  c == '±' || c == '¶' || c == 'Å' || c == '¼'

/-- One character step of that `re.sub`: characters outside the class are
replaced by a space. -/
def keepClassChar (c : Char) : Char := if inThemeClass c then c else ' '

/-- `str.split()` with no separator: split on whitespace runs, dropping
empty pieces.  `cur` accumulates the current word reversed. -/
def splitWsGo (cur : List Char) : List Char → List (List Char)
  | [] =>
    match cur with
    | [] => []
    | _ => [cur.reverse]
  | c :: rest =>
    if isSpaceCh c then
      match cur with
      | [] => splitWsGo [] rest
      | _ => cur.reverse :: splitWsGo [] rest
    else splitWsGo (c :: cur) rest

/-- `str.split()` on a string, as a list of strings. -/
def splitWsStr (s : String) : List String := (splitWsGo [] s.data).map fun l => ⟨l⟩

/-- `str.join`: `joinSep sep l` is `sep.join(l)`. -/
def joinSep (sep : String) : List String → String
  | [] => ""
  | [s] => s
  | s :: rest => s ++ sep ++ joinSep sep rest

/-- The fixed stop-word set of `keyword_theme` (src/app.py:138-139),
byte-for-byte the source's (mojibake) literals. -/
def stopWords : List String :=
  ["bugÃ¼n", "son", "dakika", "piyasa", "borsa", "bist", "bist100",
   "yÃ¼zde", "ile", "daha", "olarak", "gibi", "iÃ§in",
   "ÅŸirket", "hisse", "endeks"]

/-- One step of the frequency loop `freq[t] = freq.get(t, 0) + 1`, the dict
modelled as an association list in insertion order. -/
def bump : List (String × Nat) → String → List (String × Nat)
  | [], t => [(t, 1)]
  | (k, v) :: rest, t => if k = t then (k, v + 1) :: rest else (k, v) :: bump rest t

/-- The whole frequency dict of `keyword_theme`. -/
def freqOf (tokens : List String) : List (String × Nat) := tokens.foldl bump []

/-- Insertion step of `sorted(·, key=lambda x: x[1], reverse=True)` on dict
items: stable descending order by count (Python's sort is stable and
`reverse=True` preserves the original order of equal keys). -/
def insPairDesc (p : String × Nat) : List (String × Nat) → List (String × Nat)
  | [] => [p]
  | q :: l => if q.2 ≤ p.2 then p :: q :: l else q :: insPairDesc p l

/-- Stable descending sort by count of (word, count) pairs. -/
def sortPairsDesc : List (String × Nat) → List (String × Nat)
  | [] => []
  | p :: l => insPairDesc p (sortPairsDesc l)

/-- `keyword_theme` (src/app.py:134-145). -/
def keyword_theme (items : List Item) : List String :=
  let text := lowerStr (joinSep " " (items.map fun it => it.title ++ " " ++ it.summary))
  let text2 : String := ⟨text.data.map keepClassChar⟩
  let tokens := (splitWsStr text2).filter fun t => decide (4 ≤ t.length)
  let tokens2 := tokens.filter fun t => !(stopWords.contains t)
  ((sortPairsDesc (freqOf tokens2)).take 6).map Prod.fst

/-- `SECTOR_KEYWORDS` (src/app.py:26-34), byte-for-byte the source's
(mojibake) literals, in the source's insertion order. -/
def SECTOR_KEYWORDS : List (String × List String) :=
  [("BankacÄ±lÄ±k/Finans",
    ["banka", "bankac", "kredi", "faiz", "tcmb", "merkez bank", "tahvil"]),
   ("Sanayi",
    ["sanayi", "Ã§imento", "demir", "Ã§elik", "otomotiv", "ihracat"]),
   ("Enerji",
    ["enerji", "petrol", "doÄŸalgaz", "elektrik", "yenilenebilir",
     "akaryakÄ±t"]),
   ("Holding", ["holding"]),
   ("GYO", ["gyo", "gayrimenkul", "konut"]),
   ("Teknoloji/Savunma",
    ["teknoloji", "yazÄ±lÄ±m", "savunma",
     "havacÄ±lÄ±k", "uydu", "drone"]),
   ("Perakende/GÄ±da",
    ["gÄ±da", "perakende", "tÃ¼ketim", "iÃ§ecek",
     "market"])]

/-- `needle` is a prefix of the second list (Python `str.startswith`, used
to implement substring search). -/
def startsWithL : List Char → List Char → Bool
  | [], _ => true
  | _ :: _, [] => false
  | a :: as, b :: bs => a == b && startsWithL as bs

/-- Python's `kw in blob` substring test. -/
def containsSub (needle : List Char) : List Char → Bool
  | [] => needle.isEmpty
  | c :: rest => startsWithL needle (c :: rest) || containsSub needle rest

/-- `counts[sector] += 1` on the counts dict modelled as an association
list; the key is always present (the dict is initialised with every sector),
so the nil case is unreachable. -/
def bumpCount : List (String × Nat) → String → List (String × Nat)
  | [], _ => []
  | (k, v) :: rest, sec =>
    if k = sec then (k, v + 1) :: rest else (k, v) :: bumpCount rest sec

/-- The body of the outer loop of `sector_buckets` for one item: compute
the lowercased `title + " " + summary` blob and, for each sector whose
keyword list has at least one substring match (`any`), increment that
sector's count once. -/
def sectorStep (cs : List (String × Nat)) (it : Item) : List (String × Nat) :=
  let blob := lowerStr (it.title ++ " " ++ it.summary)
  SECTOR_KEYWORDS.foldl
    (fun cs2 p =>
      if p.2.any (fun kw => containsSub kw.data blob.data) then bumpCount cs2 p.1
      else cs2)
    cs

/-- `sector_buckets` (src/app.py:147-154): initialise every sector's count
to 0, run `sectorStep` over the items, keep nonzero counts. -/
def sector_buckets (items : List Item) : List (String × Nat) :=
  (items.foldl sectorStep (SECTOR_KEYWORDS.map fun p => (p.1, 0))).filter
    fun p => decide (0 < p.2)

/-- The sort key of `build_digest`:
`x.get("published") or datetime(1970, 1, 1, tzinfo=TZ)`. -/
def sortKeyOf (it : Item) : Tm := it.published.getD epochTm

/-- Insertion step of `sorted(items, key=..., reverse=True)`: stable
descending order by the publish instant. -/
def insItemDesc (a : Item) : List Item → List Item
  | [] => [a]
  | b :: l => if tmLe (sortKeyOf b) (sortKeyOf a) then a :: b :: l else b :: insItemDesc a l

/-- `sorted(items, key=lambda x: x.get("published") or epoch, reverse=True)`
(src/app.py:157-161), stable. -/
def sortByPublishedDesc : List Item → List Item
  | [] => []
  | a :: l => insItemDesc a (sortByPublishedDesc l)

/-- `top_items` of `build_digest` (src/app.py:166): the first 10 non-error
items of the descending-sorted list. -/
def top_items_of (items : List Item) : List Item :=
  ((sortByPublishedDesc items).filter fun it => !it.is_error).take 10

/-- The highlighted ("Öne Çıkanlar") list rendered by `build_digest`
(src/app.py:166-170): the members of `top_items` whose `link` is truthy. -/
def highlighted (items : List Item) : List Item :=
  (top_items_of items).filter fun it => decide (it.link ≠ "")

/-- `build_digest` (src/app.py:156-189).  The call-time expression
`datetime.now(TZ).strftime("%d %b %Y")` is passed in as `today_str`; the
f-string is modelled as explicit concatenation of the template's
byte-for-byte (mojibake) literal pieces, and the final `.strip()` as
`stripWs`. -/
def build_digest (today_str : String) (items : List Item) : String :=
  let sorted := sortByPublishedDesc items
  let themes := keyword_theme sorted
  let sectors := sector_buckets sorted
  let links_md := joinSep "\n" ((highlighted items).map fun it =>
    "- [" ++ it.source ++ "] [" ++ it.title ++ "](" ++ it.link ++ ")")
  let theme_line :=
    if themes.isEmpty then "Genel piyasa akÄ±ÅŸÄ±"
    else joinSep " / " (themes.take 3)
  let sector_line :=
    if sectors.isEmpty then "SektÃ¶rel daÄŸÄ±lÄ±m net deÄŸil"
    else joinSep ", " (((sortPairsDesc sectors).take 4).map fun p =>
      p.1 ++ "(" ++ toString p.2 ++ ")")
  let body :=
    "\n### Borsa Ä°stanbul â€” GÃ¼nlÃ¼k Piyasa Ã–zeti (" ++
    (today_str ++
    (")\n\n**GÃ¼nÃ¼n TemasÄ±:** *" ++
    (theme_line ++
    ("*  \n**YoÄŸunlaÅŸma:** " ++
    (sector_line ++
    ("\n\nBugÃ¼n haber akÄ±ÅŸÄ±nda **" ++
    (theme_line ++
    ("** temalarÄ± Ã¶ne Ã§Ä±ktÄ±. ManÅŸet yoÄŸunluÄŸu Ã¶zellikle **" ++
    (sector_line ++
    ("** Ã§evresinde toplandÄ±. Genel resim, sektÃ¶rler arasÄ± rota deÄŸiÅŸimi ve ÅŸirket-Ã¶zel geliÅŸmelerle seÃ§ici bir fiyatlamaya iÅŸaret ediyor.\n\n#### Ã–ne Ã‡Ä±kanlar\n" ++
    ((if links_md = ""
      then "- (BugÃ¼n iÃ§in Ã¶ne Ã§Ä±kan baÅŸlÄ±k bulunamadÄ±)"
      else links_md) ++ "\n")))))))))))
  ⟨stripWs body.data⟩

/-- Truncation to a 32-bit word. -/
def w32 (n : Nat) : Nat := n % 4294967296

/-- 32-bit right rotation by `n`. -/
def rotr32 (n x : Nat) : Nat := w32 (x / 2 ^ n + x % 2 ^ n * 2 ^ (32 - n))

/-- 32-bit logical right shift by `n`. -/
def shr32 (n x : Nat) : Nat := x / 2 ^ n

/-- SHA-256 `Ch(e, f, g)`. -/
def shaCh (e f g : Nat) : Nat := (e &&& f) ^^^ ((e ^^^ 4294967295) &&& g)

/-- SHA-256 `Maj(a, b, c)`. -/
def shaMaj (a b c : Nat) : Nat := (a &&& b) ^^^ (a &&& c) ^^^ (b &&& c)

/-- SHA-256 `Σ0`. -/
def bigS0 (x : Nat) : Nat := rotr32 2 x ^^^ rotr32 13 x ^^^ rotr32 22 x

/-- SHA-256 `Σ1`. -/
def bigS1 (x : Nat) : Nat := rotr32 6 x ^^^ rotr32 11 x ^^^ rotr32 25 x

/-- SHA-256 `σ0`. -/
def smallS0 (x : Nat) : Nat := rotr32 7 x ^^^ rotr32 18 x ^^^ shr32 3 x

/-- SHA-256 `σ1`. -/
def smallS1 (x : Nat) : Nat := rotr32 17 x ^^^ rotr32 19 x ^^^ shr32 10 x

/-- The 64 SHA-256 round constants of FIPS 180-4 (the fractional parts of
the cube roots of the first 64 primes), written as decimal words. -/
def K256 : List Nat :=
  [1116352408, 1899447441, 3049323471, 3921009573, 961987163,
   1508970993, 2453635748, 2870763221, 3624381080, 310598401,
   607225278, 1426881987, 1925078388, 2162078206, 2614888103,
   3248222580, 3835390401, 4022224774, 264347078, 604807628,
   770255983, 1249150122, 1555081692, 1996064986, 2554220882,
   2821834349, 2952996808, 3210313671, 3336571891, 3584528711,
   113926993, 338241895, 666307205, 773529912, 1294757372,
   1396182291, 1695183700, 1986661051, 2177026350, 2456956037,
   2730485921, 2820302411, 3259730800, 3345764771, 3516065817,
   3600352804, 4094571909, 275423344, 430227734, 506948616,
   659060556, 883997877, 958139571, 1322822218, 1537002063,
   1747873779, 1955562222, 2024104815, 2227730452, 2361852424,
   2428436474, 2756734187, 3204031479, 3329325298]

/-- The SHA-256 initial hash value of FIPS 180-4, as decimal words. -/
def H0256 : List Nat :=
  [1779033703, 3144134277, 1013904242, 2773480762,
   1359893119, 2600822924, 528734635, 1541459225]

/-- Big-endian 8-byte encoding of `v` (the padded bit length). -/
def be8Bytes (v : Nat) : List Nat :=
  [v / 2 ^ 56 % 256, v / 2 ^ 48 % 256, v / 2 ^ 40 % 256, v / 2 ^ 32 % 256,
   v / 2 ^ 24 % 256, v / 2 ^ 16 % 256, v / 2 ^ 8 % 256, v % 256]

/-- SHA-256 padding of a byte message: `0x80`, zeros, 64-bit length. -/
def sha256pad (msg : List Nat) : List Nat :=
  let z := (119 - msg.length % 64) % 64
  msg ++ [128] ++ List.replicate z 0 ++ be8Bytes (8 * msg.length)

/-- Grouping of a (padded) byte list into big-endian 32-bit words. -/
def toWords : List Nat → List Nat
  | b0 :: b1 :: b2 :: b3 :: rest =>
    (b0 * 2 ^ 24 + b1 * 2 ^ 16 + b2 * 2 ^ 8 + b3) :: toWords rest
  | _ => []

/-- Message-schedule extension: append `fuel` further schedule words. -/
def extendW (w : List Nat) : Nat → List Nat
  | 0 => w
  | n + 1 =>
    let t := w.length
    let nw := w32 (smallS1 (w.getD (t - 2) 0) + w.getD (t - 7) 0 +
      smallS0 (w.getD (t - 15) 0) + w.getD (t - 16) 0)
    extendW (w ++ [nw]) n

/-- The eight working variables of the SHA-256 compression loop. -/
structure Sha8 where
  a : Nat
  b : Nat
  c : Nat
  d : Nat
  e : Nat
  f : Nat
  g : Nat
  h : Nat

/-- One round of the SHA-256 compression loop. -/
def shaRound (st : Sha8) (k w : Nat) : Sha8 :=
  let t1 := w32 (st.h + bigS1 st.e + shaCh st.e st.f st.g + k + w)
  let t2 := w32 (bigS0 st.a + shaMaj st.a st.b st.c)
  ⟨w32 (t1 + t2), st.a, st.b, st.c, w32 (st.d + t1), st.e, st.f, st.g⟩

/-- Compression of one 16-word block into the running hash `H`. -/
def shaCompress (H : List Nat) (block : List Nat) : List Nat :=
  let W := extendW block 48
  let st0 : Sha8 := ⟨H.getD 0 0, H.getD 1 0, H.getD 2 0, H.getD 3 0,
    H.getD 4 0, H.getD 5 0, H.getD 6 0, H.getD 7 0⟩
  let fin := (K256.zip W).foldl (fun st p => shaRound st p.1 p.2) st0
  [w32 (H.getD 0 0 + fin.a), w32 (H.getD 1 0 + fin.b), w32 (H.getD 2 0 + fin.c),
   w32 (H.getD 3 0 + fin.d), w32 (H.getD 4 0 + fin.e), w32 (H.getD 5 0 + fin.f),
   w32 (H.getD 6 0 + fin.g), w32 (H.getD 7 0 + fin.h)]

/-- Iteration of the compression function over the 16-word blocks. -/
def shaBlocks (H : List Nat) (ws : List Nat) : List Nat :=
  if ws = [] then H else shaBlocks (shaCompress H (ws.take 16)) (ws.drop 16)
termination_by ws.length
decreasing_by
  simp only [List.length_drop]
  have : ws.length ≠ 0 := fun h => by simp [List.length_eq_zero.mp h] at *
  omega

/-- A lowercase hexadecimal digit. -/
def hexDigit (n : Nat) : Char :=
  if n < 10 then Char.ofNat (48 + n) else Char.ofNat (87 + n)

/-- The eight hex digits of a 32-bit word, most significant first. -/
def hex8 (v : Nat) : List Char :=
  [hexDigit (v / 2 ^ 28 % 16), hexDigit (v / 2 ^ 24 % 16),
   hexDigit (v / 2 ^ 20 % 16), hexDigit (v / 2 ^ 16 % 16),
   hexDigit (v / 2 ^ 12 % 16), hexDigit (v / 2 ^ 8 % 16),
   hexDigit (v / 2 ^ 4 % 16), hexDigit (v % 16)]

/-- `hashlib.sha256(s.encode("utf-8")).hexdigest()`: full SHA-256 over the
UTF-8 encoding of `s`, in lowercase hex. -/
def sha256hex (s : String) : String :=
  let bytes := s.toUTF8.toList.map fun b => b.toNat
  let Hf := shaBlocks H0256 (toWords (sha256pad bytes))
  ⟨(Hf.map hex8).flatten⟩

/-- `item_hash` (src/app.py:70-72): the first 16 hex characters of the
SHA-256 digest of `title + "||" + link`. -/
def item_hash (title link : String) : String :=
  (sha256hex (title ++ "||" ++ link)).take 16

/-- One parsed feed entry, as `feedparser` hands it to the loop of
`fetch_feed_items`: the string fields default to `""` when missing
(`getattr(e, ..., "") or ""`), and the raw date fields to absent. -/
structure FeedEntry where
  title : String
  link : String
  summary : String
  description : String
  published : Option String
  updated : Option String

/-- Python's `a or b` on the optional raw date strings, where `None` and
`""` are falsy. -/
def firstTruthy (a b : Option String) : Option String :=
  match a with
  | none => b
  | some s => if s = "" then b else some s

/-- `safe_parse_dt` (src/app.py:59-68).  The external `dateutil` parser —
together with the UTC default and the `astimezone(TZ)` conversion — is
modelled by the parameter `dtp`, which returns the display-timezone instant
on success and `none` on a parse failure; `safe_parse_dt` itself contributes
the falsy-input check (`if not x`) and the exception recovery. -/
def safe_parse_dt (dtp : String → Option Tm) (x : Option String) : Option Tm :=
  match x with
  | none => none
  | some s => if s = "" then none else dtp s

/-- `fetch_feed_items` (src/app.py:74-115).  The network retrieval and feed
parse (`requests.get` with `timeout_sec`, `raise_for_status`,
`feedparser.parse`) are modelled by the `fetched` argument: `Except.error e`
is the `except Exception as e` path with failure description `e`, and
`Except.ok entries` the successful parse.  The `st.cache_data` decorator is
presentation-layer memoisation and adds nothing to the value computed. -/
def fetch_feed_items (dtp : String → Option Tm) (name url : String)
    (limit : Nat) (timeout_sec : Nat)
    (fetched : Except String (List FeedEntry)) : List Item :=
  match fetched with
  | .error e =>
    [{ source := name, title := "Feed error: " ++ name, link := url,
       summary := e, published := none, hash := item_hash name url,
       is_error := true }]
  | .ok entries =>
    (entries.take limit).map fun e =>
      let title := clean_text e.title
      let link := e.link
      let summary := clean_text (if e.summary = "" then e.description else e.summary)
      let published := safe_parse_dt dtp (firstTruthy e.published e.updated)
      { source := name, title := title, link := link, summary := summary,
        published := published, hash := item_hash title link,
        is_error := false }

/-- The highlighted list as claim C4 words it: the first `n` items, taken in
published-descending order, that have a non-empty link.  This second
definition follows the claim's words (not the code) and is compared against
`highlighted`, the list the code renders. -/
def claimHighlightedC4 (n : Nat) (items : List Item) : List Item :=
  ((sortByPublishedDesc items).filter fun it => decide (it.link ≠ "")).take n

/-- Proof helper: the head, if any, is not whitespace. -/
def headNotSp : List Char → Bool
  | [] => true
  | c :: _ => !isSpaceCh c

/-- Proof helper: no two adjacent whitespace characters. -/
def noTwoSp : List Char → Bool
  | [] => true
  | [_] => true
  | a :: b :: r => !(isSpaceCh a && isSpaceCh b) && noTwoSp (b :: r)

/-- Proof helper: every whitespace character is a plain space. -/
def blankSp (l : List Char) : Bool := l.all fun c => !isSpaceCh c || c == ' '

/-- Proof helper: the count stored for key `k` in an association list of
sector counts (0 when absent). -/
def valAt (k : String) : List (String × Nat) → Nat
  | [] => 0
  | (k2, v) :: rest => if k2 = k then v else valAt k rest

/-- Fixture: two items sharing the fingerprint `"x"`. -/
def itKA : Item := ⟨"a", "T1", "L1", "", none, "x", false⟩

/-- Fixture: second item with fingerprint `"x"`. -/
def itKB : Item := ⟨"b", "T2", "L2", "", none, "x", false⟩

/-- Fixture: an item published on day 100. -/
def itToday : Item := ⟨"s", "t", "l", "", some ⟨100, 5⟩, "h", false⟩

/-- Fixture: an item published on day 99. -/
def itOld : Item := ⟨"s", "t2", "l2", "", some ⟨99, 5⟩, "h2", false⟩

/-- Fixture: an item with no publish timestamp. -/
def itNoDate : Item := ⟨"s", "t3", "l3", "", none, "h3", false⟩

/-- Fixture: an item whose title matches the `Holding` sector keyword. -/
def itHold : Item := ⟨"s", "holding news", "l", "", none, "h", false⟩

/-- Fixture: a one-item batch whose dominant keyword is `savunma`. -/
def thItems : List Item :=
  [⟨"A", "savunma savunma konut", "x", "gida", none, "k1", false⟩]

/-- Fixture: item number `n` of the C4 counterexample, published at time
`200 - n` of day 0 (so the numbering is the published-descending order). -/
def cxItem (n : Nat) (lk : String) : Item :=
  ⟨"s", "t" ++ toString n, lk, "", some ⟨0, 200 - (n : Int)⟩,
   "h" ++ toString n, false⟩

/-- Fixture for the C4 counterexample: twelve non-error items in
published-descending order, the five most recent with an empty link. -/
def cxItems : List Item :=
  [cxItem 1 "", cxItem 2 "", cxItem 3 "", cxItem 4 "", cxItem 5 "",
   cxItem 6 "l6", cxItem 7 "l7", cxItem 8 "l8", cxItem 9 "l9",
   cxItem 10 "l10", cxItem 11 "l11", cxItem 12 "l12"]

/-- The concrete tail of the digest document for an empty batch: everything
`build_digest today_str []` places after `today_str`, with both fallback
lines and the placeholder bullet filled in. -/
def digestEmptyTail : String :=
  ")\n\n**GÃ¼nÃ¼n TemasÄ±:** *" ++
  ("Genel piyasa akÄ±ÅŸÄ±" ++
  ("*  \n**YoÄŸunlaÅŸma:** " ++
  ("SektÃ¶rel daÄŸÄ±lÄ±m net deÄŸil" ++
  ("\n\nBugÃ¼n haber akÄ±ÅŸÄ±nda **" ++
  ("Genel piyasa akÄ±ÅŸÄ±" ++
  ("** temalarÄ± Ã¶ne Ã§Ä±ktÄ±. ManÅŸet yoÄŸunluÄŸu Ã¶zellikle **" ++
  ("SektÃ¶rel daÄŸÄ±lÄ±m net deÄŸil" ++
  ("** Ã§evresinde toplandÄ±. Genel resim, sektÃ¶rler arasÄ± rota deÄŸiÅŸimi ve ÅŸirket-Ã¶zel geliÅŸmelerle seÃ§ici bir fiyatlamaya iÅŸaret ediyor.\n\n#### Ã–ne Ã‡Ä±kanlar\n" ++
  ("- (BugÃ¼n iÃ§in Ã¶ne Ã§Ä±kan baÅŸlÄ±k bulunamadÄ±)" ++ "\n")))))))))

theorem dedupeAux_sublist (seen : List String) (l : List Item) :
    (dedupeAux seen l).Sublist l := by
  induction l generalizing seen with
  | nil => simp [dedupeAux]
  | cons it rest ih =>
    by_cases h : keyOf it ∈ seen
    · simp only [dedupeAux, if_pos h]
      exact List.Sublist.cons it (ih seen)
    · simp only [dedupeAux, if_neg h]
      exact List.Sublist.cons₂ it (ih _)

theorem dedupeAux_key_not_seen (seen : List String) (l : List Item) :
    ∀ it, it ∈ dedupeAux seen l → keyOf it ∉ seen := by
  induction l generalizing seen with
  | nil => simp [dedupeAux]
  | cons hd rest ih =>
    by_cases h : keyOf hd ∈ seen
    · simp only [dedupeAux, if_pos h]
      exact ih seen
    · simp only [dedupeAux, if_neg h]
      intro it hit
      rcases List.mem_cons.mp hit with he | ht
      · exact he ▸ h
      · intro hs
        exact ih _ it ht (List.mem_cons_of_mem _ hs)

theorem dedupeAux_keys_nodup (seen : List String) (l : List Item) :
    ((dedupeAux seen l).map keyOf).Nodup := by
  induction l generalizing seen with
  | nil => simp [dedupeAux]
  | cons hd rest ih =>
    by_cases h : keyOf hd ∈ seen
    · simp only [dedupeAux, if_pos h]
      exact ih seen
    · simp only [dedupeAux, if_neg h, List.map_cons, List.nodup_cons]
      refine ⟨?_, ih _⟩
      intro hmem
      rcases List.mem_map.mp hmem with ⟨it, hit, he⟩
      exact dedupeAux_key_not_seen _ _ it hit (he ▸ List.mem_cons_self _ _)

theorem dedupeAux_find_first (seen : List String) (l : List Item) :
    ∀ it, it ∈ dedupeAux seen l →
      l.find? (fun x => keyOf x == keyOf it) = some it := by
  induction l generalizing seen with
  | nil => simp [dedupeAux]
  | cons hd rest ih =>
    by_cases h : keyOf hd ∈ seen
    · simp only [dedupeAux, if_pos h]
      intro it hit
      have hne : ¬(keyOf hd == keyOf it) = true := by
        simp only [beq_iff_eq]
        intro he
        exact dedupeAux_key_not_seen seen rest it hit (he ▸ h)
      rw [@List.find?_cons_of_neg _ (fun x => keyOf x == keyOf it) hd rest hne]
      exact ih seen it hit
    · simp only [dedupeAux, if_neg h]
      intro it hit
      rcases List.mem_cons.mp hit with he | ht
      · subst he
        exact @List.find?_cons_of_pos _ (fun x => keyOf x == keyOf it) it rest (by simp)
      · have hns := dedupeAux_key_not_seen _ _ it ht
        have hne : ¬(keyOf hd == keyOf it) = true := by
          simp only [beq_iff_eq]
          intro he
          exact hns (he ▸ List.mem_cons_self _ _)
        rw [@List.find?_cons_of_neg _ (fun x => keyOf x == keyOf it) hd rest hne]
        exact ih _ it ht

theorem dedupeAux_covers (seen : List String) (l : List Item) :
    ∀ it, it ∈ l → keyOf it ∈ seen ∨
      ∃ it2, it2 ∈ dedupeAux seen l ∧ keyOf it2 = keyOf it := by
  induction l generalizing seen with
  | nil => simp
  | cons hd rest ih =>
    intro it hit
    by_cases h : keyOf hd ∈ seen
    · simp only [dedupeAux, if_pos h]
      rcases List.mem_cons.mp hit with he | ht
      · exact Or.inl (he ▸ h)
      · exact ih seen it ht
    · simp only [dedupeAux, if_neg h]
      rcases List.mem_cons.mp hit with he | ht
      · exact Or.inr ⟨hd, List.mem_cons_self _ _, by rw [he]⟩
      · rcases ih (keyOf hd :: seen) it ht with hs | ⟨it2, hit2, he2⟩
        · rcases List.mem_cons.mp hs with he | hs2
          · exact Or.inr ⟨hd, List.mem_cons_self _ _, he.symm⟩
          · exact Or.inl hs2
        · exact Or.inr ⟨it2, List.mem_cons_of_mem _ hit2, he2⟩

theorem dedupeAux_eq_self (l : List Item) :
    ∀ seen, (l.map keyOf).Nodup → (∀ it, it ∈ l → keyOf it ∉ seen) →
      dedupeAux seen l = l := by
  induction l with
  | nil => intro seen _ _; rfl
  | cons hd rest ih =>
    intro seen hnd hns
    have h : keyOf hd ∉ seen := hns hd (List.mem_cons_self _ _)
    simp only [dedupeAux, if_neg h]
    congr 1
    rw [List.map_cons, List.nodup_cons] at hnd
    obtain ⟨hhd, htl⟩ := hnd
    refine ih _ htl ?_
    intro it hit hm
    rcases List.mem_cons.mp hm with he | hs
    · exact hhd (he ▸ List.mem_map.mpr ⟨it, hit, he ▸ rfl⟩)
    · exact hns it (List.mem_cons_of_mem _ hit) hs

/-- C1: on any exception from the HTTP retrieval or the feed parse
(`Except.error e`), `fetch_feed_items` returns exactly one item: title
`"Feed error: " ++ name`, summary the failure description, link the feed
URL, no publish timestamp, fingerprint `item_hash name url`, and
`is_error = true`.  Being a total function, the embedding returns this
value rather than raising, for every source name, URL, limit and timeout. -/
theorem C1_fetch_feed_items_error (dtp : String → Option Tm) (name url : String)
    (limit timeout_sec : Nat) (e : String) :
    fetch_feed_items dtp name url limit timeout_sec (Except.error e) =
      [{ source := name, title := "Feed error: " ++ name, link := url,
         summary := e, published := none, hash := item_hash name url,
         is_error := true }] := rfl

/-- C2: `dedupe` keeps a subsequence of its input (first-seen order), its
output has pairwise distinct dedup keys, every kept item is the first item
of the input carrying its key, and every input key is represented. -/
theorem C2_dedupe_first_seen (items : List Item) :
    (dedupe items).Sublist items ∧
    ((dedupe items).map keyOf).Nodup ∧
    (∀ it, it ∈ dedupe items →
      items.find? (fun x => keyOf x == keyOf it) = some it) ∧
    (∀ it, it ∈ items → ∃ it2, it2 ∈ dedupe items ∧ keyOf it2 = keyOf it) := by
  refine ⟨dedupeAux_sublist [] items, dedupeAux_keys_nodup [] items,
    dedupeAux_find_first [] items, ?_⟩
  intro it hit
  rcases dedupeAux_covers [] items it hit with hs | h
  · cases hs
  · exact h

theorem C2_dedupe_first_seen_witness :
    (itKA ∈ dedupe [itKA, itKB]) ∧
    [itKA, itKB].find? (fun x => keyOf x == keyOf itKA) = some itKA := by
  refine ⟨by decide, (C2_dedupe_first_seen [itKA, itKB]).2.2.1 itKA (by decide)⟩

/-- C9: `dedupe` is idempotent. -/
theorem C9_dedupe_idempotent (items : List Item) :
    dedupe (dedupe items) = dedupe items := by
  unfold dedupe
  refine dedupeAux_eq_self _ [] (dedupeAux_keys_nodup [] items) ?_
  intro it _ hm
  cases hm

/-- C3: with the flag off, `filter_today` is the identity; with the flag
on, it keeps exactly the items whose publish timestamp is present and whose
date (in the display timezone) equals the current date `today` (in that
timezone) at call time — items with an absent timestamp are dropped. -/
theorem C3_filter_today_spec (today : Int) (items : List Item) :
    filter_today today items false = items ∧
    ∀ it, it ∈ filter_today today items true ↔
      it ∈ items ∧ ∃ t, it.published = some t ∧ t.date = today := by
  refine ⟨rfl, ?_⟩
  intro it
  show it ∈ items.filter _ ↔ _
  rw [List.mem_filter]
  constructor
  · rintro ⟨hmem, hp⟩
    refine ⟨hmem, ?_⟩
    cases hpub : it.published with
    | none => rw [hpub] at hp; cases hp
    | some t =>
      rw [hpub] at hp
      exact ⟨t, rfl, by simpa using hp⟩
  · rintro ⟨hmem, t, hpub, hd⟩
    refine ⟨hmem, ?_⟩
    rw [hpub]
    simpa using hd

theorem C3_filter_today_spec_witness :
    itToday ∈ filter_today 100 [itToday, itOld, itNoDate] true ∧
    filter_today 100 [itToday, itOld, itNoDate] false =
      [itToday, itOld, itNoDate] :=
  ⟨((C3_filter_today_spec 100 [itToday, itOld, itNoDate]).2 itToday).mpr
      ⟨by decide, ⟨100, 5⟩, rfl, rfl⟩,
    (C3_filter_today_spec 100 [itToday, itOld, itNoDate]).1⟩

theorem map_fst_bumpCount (sec : String) :
    ∀ cs : List (String × Nat), (bumpCount cs sec).map Prod.fst = cs.map Prod.fst := by
  intro cs
  induction cs with
  | nil => rfl
  | cons p rest ih =>
    obtain ⟨k2, v⟩ := p
    by_cases h : k2 = sec
    · simp [bumpCount, h]
    · simp [bumpCount, h, ih]

theorem map_fst_condFold (cond : String × List String → Bool) :
    ∀ (L : List (String × List String)) (cs : List (String × Nat)),
      (L.foldl (fun cs2 p => if cond p then bumpCount cs2 p.1 else cs2) cs).map
          Prod.fst = cs.map Prod.fst := by
  intro L
  induction L with
  | nil => intro cs; rfl
  | cons p rest ih =>
    intro cs
    simp only [List.foldl_cons]
    rw [ih]
    by_cases h : cond p
    · simp [h, map_fst_bumpCount]
    · simp [h]

theorem map_fst_sectorStep (cs : List (String × Nat)) (it : Item) :
    (sectorStep cs it).map Prod.fst = cs.map Prod.fst := by
  simp only [sectorStep]
  exact map_fst_condFold _ SECTOR_KEYWORDS cs

theorem map_fst_itemsFold :
    ∀ (items : List Item) (cs : List (String × Nat)),
      (items.foldl sectorStep cs).map Prod.fst = cs.map Prod.fst := by
  intro items
  induction items with
  | nil => intro cs; rfl
  | cons it rest ih =>
    intro cs
    simp only [List.foldl_cons]
    rw [ih, map_fst_sectorStep]

theorem valAt_bumpCount (k sec : String) :
    ∀ cs, valAt k (bumpCount cs sec) ≤ valAt k cs + (if sec = k then 1 else 0) := by
  intro cs
  induction cs with
  | nil => simp [bumpCount, valAt]
  | cons p rest ih =>
    obtain ⟨k2, v⟩ := p
    by_cases h2 : k2 = sec
    · subst h2
      by_cases hk : k2 = k
      · subst hk
        simp [bumpCount, valAt]
      · simp [bumpCount, valAt, hk]
    · by_cases hk : k2 = k
      · subst hk
        have h3 : ¬sec = k2 := fun he => h2 he.symm
        simp [bumpCount, valAt, h2, h3]
      · simp only [bumpCount, if_neg h2, valAt, if_neg hk]
        exact ih

theorem valAt_condFold (cond : String × List String → Bool) (k : String) :
    ∀ (L : List (String × List String)) (cs : List (String × Nat)),
      valAt k (L.foldl (fun cs2 p => if cond p then bumpCount cs2 p.1 else cs2) cs) ≤
        valAt k cs + List.count k (L.map Prod.fst) := by
  intro L
  induction L with
  | nil => intro cs; simp
  | cons p rest ih =>
    intro cs
    simp only [List.foldl_cons, List.map_cons, List.count_cons]
    have h1 := ih (if cond p then bumpCount cs p.1 else cs)
    have h2 : valAt k (if cond p then bumpCount cs p.1 else cs) ≤
        valAt k cs + (if p.1 = k then 1 else 0) := by
      by_cases h : cond p
      · simpa [h] using valAt_bumpCount k p.1 cs
      · simp [h]
    by_cases hk : p.1 = k
    · simp only [hk, beq_self_eq_true, if_pos, if_true] at *
      omega
    · have hb : ¬(p.1 == k) = true := by simpa using hk
      simp only [if_neg hk, if_neg hb] at *
      omega

theorem valAt_sectorStep (k : String) (cs : List (String × Nat)) (it : Item) :
    valAt k (sectorStep cs it) ≤
      valAt k cs + List.count k (SECTOR_KEYWORDS.map Prod.fst) := by
  simp only [sectorStep]
  exact valAt_condFold _ k SECTOR_KEYWORDS cs

theorem valAt_itemsFold (k : String) :
    ∀ (items : List Item) (cs : List (String × Nat)),
      valAt k (items.foldl sectorStep cs) ≤
        valAt k cs + items.length * List.count k (SECTOR_KEYWORDS.map Prod.fst) := by
  intro items
  induction items with
  | nil => intro cs; simp
  | cons it rest ih =>
    intro cs
    simp only [List.foldl_cons, List.length_cons]
    have h1 := ih (sectorStep cs it)
    have h2 := valAt_sectorStep k cs it
    have h3 : (rest.length + 1) * List.count k (SECTOR_KEYWORDS.map Prod.fst) =
        rest.length * List.count k (SECTOR_KEYWORDS.map Prod.fst) +
          List.count k (SECTOR_KEYWORDS.map Prod.fst) := Nat.succ_mul _ _
    omega

theorem valAt_of_mem_nodup :
    ∀ (cs : List (String × Nat)) (k : String) (v : Nat),
      (cs.map Prod.fst).Nodup → (k, v) ∈ cs → valAt k cs = v := by
  intro cs
  induction cs with
  | nil => intro k v _ h; cases h
  | cons p rest ih =>
    intro k v hnd hm
    obtain ⟨k2, v2⟩ := p
    rw [List.map_cons, List.nodup_cons] at hnd
    rcases List.mem_cons.mp hm with he | ht
    · rw [Prod.mk.injEq] at he
      obtain ⟨rfl, rfl⟩ := he
      simp [valAt]
    · by_cases hk : k2 = k
      · subst hk
        exact absurd (List.mem_map.mpr ⟨(k2, v), ht, rfl⟩) hnd.1
      · simp only [valAt, if_neg hk]
        exact ih k v hnd.2 ht

theorem valAt_counts0 (k : String) :
    ∀ L : List (String × List String), valAt k (L.map fun p => (p.1, 0)) = 0 := by
  intro L
  induction L with
  | nil => rfl
  | cons p rest ih =>
    by_cases h : p.1 = k
    · simp [valAt, h]
    · simp only [List.map_cons, valAt, if_neg h]
      exact ih

theorem nodup_sector_names : (SECTOR_KEYWORDS.map Prod.fst).Nodup := by decide

/-- C8: every sector name present in the mapping returned by
`sector_buckets` has a strictly positive count. -/
theorem C8_sector_buckets_positive (items : List Item) (sec : String) (n : Nat)
    (h : (sec, n) ∈ sector_buckets items) : 0 < n := by
  unfold sector_buckets at h
  exact of_decide_eq_true (List.mem_filter.mp h).2

theorem C8_sector_buckets_positive_witness :
    ("Holding", 1) ∈ sector_buckets [itHold] ∧ 0 < 1 :=
  ⟨by decide, C8_sector_buckets_positive [itHold] "Holding" 1 (by decide)⟩

/-- C10: every per-sector count returned by `sector_buckets` is at most the
number of items in the batch — a single item increments a given sector at
most once, even when several of its keywords match. -/
theorem C10_sector_count_le_items (items : List Item) (sec : String) (n : Nat)
    (h : (sec, n) ∈ sector_buckets items) : n ≤ items.length := by
  unfold sector_buckets at h
  have hmem := (List.mem_filter.mp h).1
  have hkeys :
      ((items.foldl sectorStep (SECTOR_KEYWORDS.map fun p => (p.1, 0))).map
        Prod.fst).Nodup := by
    rw [map_fst_itemsFold]
    simpa [List.map_map, Function.comp] using nodup_sector_names
  have hv := valAt_of_mem_nodup _ sec n hkeys hmem
  have hb := valAt_itemsFold sec items (SECTOR_KEYWORDS.map fun p => (p.1, 0))
  rw [hv, valAt_counts0] at hb
  have hcnt : List.count sec (SECTOR_KEYWORDS.map Prod.fst) ≤ 1 :=
    List.nodup_iff_count_le_one.mp nodup_sector_names sec
  calc n ≤ items.length * List.count sec (SECTOR_KEYWORDS.map Prod.fst) := by omega
    _ ≤ items.length * 1 := Nat.mul_le_mul_left _ hcnt
    _ = items.length := Nat.mul_one _

theorem C10_sector_count_le_items_witness :
    ("Holding", 1) ∈ sector_buckets [itHold] ∧
    1 ≤ ([itHold] : List Item).length :=
  ⟨by decide, C10_sector_count_le_items [itHold] "Holding" 1 (by decide)⟩

theorem mem_insPairDesc (q : String × Nat) :
    ∀ (l : List (String × Nat)) (p : String × Nat),
      p ∈ insPairDesc q l → p = q ∨ p ∈ l := by
  intro l
  induction l with
  | nil =>
    intro p hp
    simpa [insPairDesc] using hp
  | cons r rest ih =>
    intro p hp
    by_cases h : r.2 ≤ q.2
    · simp only [insPairDesc, if_pos h] at hp
      rcases List.mem_cons.mp hp with he | ht
      · exact Or.inl he
      · exact Or.inr ht
    · simp only [insPairDesc, if_neg h] at hp
      rcases List.mem_cons.mp hp with he | ht
      · exact Or.inr (he ▸ List.mem_cons_self _ _)
      · rcases ih p ht with h1 | h2
        · exact Or.inl h1
        · exact Or.inr (List.mem_cons_of_mem _ h2)

theorem mem_sortPairsDesc :
    ∀ (l : List (String × Nat)) (p : String × Nat),
      p ∈ sortPairsDesc l → p ∈ l := by
  intro l
  induction l with
  | nil => intro p hp; simpa [sortPairsDesc] using hp
  | cons q rest ih =>
    intro p hp
    simp only [sortPairsDesc] at hp
    rcases mem_insPairDesc q _ p hp with he | ht
    · exact he ▸ List.mem_cons_self _ _
    · exact List.mem_cons_of_mem _ (ih p ht)

theorem mem_fst_bump (t : String) :
    ∀ (acc : List (String × Nat)) (k : String),
      k ∈ (bump acc t).map Prod.fst → k ∈ acc.map Prod.fst ∨ k = t := by
  intro acc
  induction acc with
  | nil =>
    intro k hk
    simp only [bump, List.map_cons, List.map_nil] at hk
    rcases List.mem_cons.mp hk with he | ht
    · exact Or.inr he
    · cases ht
  | cons p rest ih =>
    intro k hk
    obtain ⟨k2, v⟩ := p
    by_cases h : k2 = t
    · simp only [bump, if_pos h, List.map_cons] at hk
      simpa using Or.inl hk
    · simp only [bump, if_neg h, List.map_cons] at hk
      rcases List.mem_cons.mp hk with he | ht
      · exact Or.inl (by simpa using Or.inl he)
      · rcases ih k ht with h1 | h2
        · exact Or.inl (by simpa using Or.inr (by simpa using h1))
        · exact Or.inr h2

theorem mem_fst_freqFold :
    ∀ (ts : List String) (acc : List (String × Nat)) (k : String),
      k ∈ ((ts.foldl bump acc).map Prod.fst) → k ∈ acc.map Prod.fst ∨ k ∈ ts := by
  intro ts
  induction ts with
  | nil => intro acc k hk; exact Or.inl hk
  | cons t rest ih =>
    intro acc k hk
    simp only [List.foldl_cons] at hk
    rcases ih (bump acc t) k hk with h1 | h2
    · rcases mem_fst_bump t acc k h1 with h3 | h4
      · exact Or.inl h3
      · exact Or.inr (h4 ▸ List.mem_cons_self _ _)
    · exact Or.inr (List.mem_cons_of_mem _ h2)

/-- C6: `keyword_theme` returns at most 6 tokens, each at least 4
characters long and not a stop word; the empty batch yields the empty
list. -/
theorem C6_keyword_theme_bounds (items : List Item) :
    (keyword_theme items).length ≤ 6 ∧
    (∀ w, w ∈ keyword_theme items → 4 ≤ w.length ∧ w ∉ stopWords) ∧
    keyword_theme ([] : List Item) = [] := by
  refine ⟨?_, ?_, by decide⟩
  · simp only [keyword_theme, List.length_map]
    have := List.length_take 6 (sortPairsDesc (freqOf
      (((splitWsStr ⟨(lowerStr (joinSep " " (items.map fun it =>
        it.title ++ " " ++ it.summary))).data.map keepClassChar⟩).filter
        fun t => decide (4 ≤ t.length)).filter
        fun t => !(stopWords.contains t))))
    omega
  · intro w hw
    simp only [keyword_theme] at hw
    rcases List.mem_map.mp hw with ⟨p, hp, he⟩
    have hp2 := List.take_subset _ _ hp
    have hp3 := mem_sortPairsDesc _ p hp2
    have hk : p.1 ∈ ((((splitWsStr ⟨(lowerStr (joinSep " " (items.map fun it =>
        it.title ++ " " ++ it.summary))).data.map keepClassChar⟩).filter
        fun t => decide (4 ≤ t.length)).filter
        fun t => !(stopWords.contains t)).foldl bump []).map Prod.fst :=
      List.mem_map.mpr ⟨p, hp3, rfl⟩
    rcases mem_fst_freqFold _ [] p.1 hk with h1 | h2
    · cases h1
    · rw [List.mem_filter] at h2
      obtain ⟨h3, h4⟩ := h2
      rw [List.mem_filter] at h3
      obtain ⟨_, h5⟩ := h3
      subst he
      refine ⟨of_decide_eq_true h5, ?_⟩
      intro hstop
      rw [Bool.not_eq_eq_eq_not, Bool.not_true] at h4
      rw [← List.elem_iff] at hstop
      have h6 : List.elem p.1 stopWords = false := by
        simpa [List.contains] using h4
      rw [hstop] at h6
      cases h6

theorem C6_keyword_theme_bounds_witness :
    ("savunma" ∈ keyword_theme thItems) ∧
    4 ≤ ("savunma" : String).length ∧ "savunma" ∉ stopWords :=
  ⟨by decide, (C6_keyword_theme_bounds thItems).2.1 "savunma" (by decide)⟩

/-- C4 counterexample: on `cxItems` (twelve non-error items in
published-descending order whose five most recent have an empty link) the
list `build_digest` highlights is the 5 linked items among the first 10,
which differs from "the first N (8-10) items with a non-empty link" for
every N in 8..10, since seven linked items exist. -/
theorem C4_highlighted_counterexample :
    highlighted cxItems ≠ claimHighlightedC4 8 cxItems ∧
    highlighted cxItems ≠ claimHighlightedC4 9 cxItems ∧
    highlighted cxItems ≠ claimHighlightedC4 10 cxItems := by decide

/-- C4 amended: the highlighted list consists of the items with a non-empty
link among the first 10 non-error items taken in published-descending order
(so it can have fewer than 10 entries even when more linked items exist):
it is exactly the link-filtered `top_items`, has at most 10 entries, is a
subsequence of the descending-sorted batch, and every entry has a non-empty
link and is not an error item. -/
theorem C4_highlighted_amended (items : List Item) :
    highlighted items =
      (((sortByPublishedDesc items).filter fun it => !it.is_error).take 10).filter
        (fun it => decide (it.link ≠ "")) ∧
    (highlighted items).length ≤ 10 ∧
    (highlighted items).Sublist (sortByPublishedDesc items) ∧
    ∀ it, it ∈ highlighted items → it.link ≠ "" ∧ it.is_error = false := by
  refine ⟨rfl, ?_, ?_, ?_⟩
  · have h1 := List.length_filter_le (fun it => decide (it.link ≠ ""))
      (top_items_of items)
    have h2 := List.length_take 10
      ((sortByPublishedDesc items).filter fun it => !it.is_error)
    simp only [highlighted, top_items_of] at *
    omega
  · exact ((List.filter_sublist _).trans (List.take_sublist _ _)).trans
      (List.filter_sublist _)
  · intro it hit
    simp only [highlighted] at hit
    rw [List.mem_filter] at hit
    obtain ⟨hmem, hlink⟩ := hit
    refine ⟨of_decide_eq_true hlink, ?_⟩
    simp only [top_items_of] at hmem
    have hmem2 := List.take_subset _ _ hmem
    rw [List.mem_filter] at hmem2
    have := hmem2.2
    simpa using this

theorem C4_highlighted_amended_witness :
    cxItem 6 "l6" ∈ highlighted cxItems ∧
    (cxItem 6 "l6").link ≠ "" ∧ (cxItem 6 "l6").is_error = false :=
  ⟨by decide, (C4_highlighted_amended cxItems).2.2.2 (cxItem 6 "l6") (by decide)⟩

theorem containsSub_append_left (n h2 : List Char)
    (hc : containsSub n h2 = true) :
    ∀ pre, containsSub n (pre ++ h2) = true := by
  intro pre
  induction pre with
  | nil => simpa using hc
  | cons c pre ih =>
    simp only [List.cons_append, containsSub, Bool.or_eq_true]
    exact Or.inr ih

theorem rstripWs_cons_of_ne (c : Char) (rest : List Char)
    (h : rstripWs rest ≠ []) : rstripWs (c :: rest) = c :: rstripWs rest := by
  simp only [rstripWs]

theorem rstripWs_append (l2 : List Char) (hne : rstripWs l2 ≠ []) :
    ∀ l1, rstripWs (l1 ++ l2) = l1 ++ rstripWs l2 := by
  intro l1
  induction l1 with
  | nil => simp
  | cons c l1 ih =>
    have h2 : rstripWs (l1 ++ l2) ≠ [] := by
      rw [ih]
      intro hx
      exact hne (List.append_eq_nil.mp hx).2
    rw [List.cons_append, rstripWs_cons_of_ne c _ h2, ih, List.cons_append]

theorem lstripWs_append_of_ne (l1 l2 : List Char) (h : lstripWs l1 ≠ []) :
    lstripWs (l1 ++ l2) = lstripWs l1 ++ l2 := by
  have hne : (List.dropWhile isSpaceCh l1).isEmpty = false := by
    cases hx : List.dropWhile isSpaceCh l1 with
    | nil => exact absurd hx h
    | cons d r => rfl
  simp [lstripWs, List.dropWhile_append, hne]

theorem stripWs_append_contains (needle pre mid post : List Char)
    (hpre : lstripWs pre ≠ [])
    (hpost : rstripWs post ≠ [])
    (hc : containsSub needle (rstripWs post) = true) :
    containsSub needle (stripWs (pre ++ (mid ++ post))) = true := by
  have h1 : lstripWs (pre ++ (mid ++ post)) = lstripWs pre ++ (mid ++ post) :=
    lstripWs_append_of_ne _ _ hpre
  have h2 : rstripWs (mid ++ post) = mid ++ rstripWs post :=
    rstripWs_append post hpost mid
  have h3 : rstripWs (mid ++ post) ≠ [] := by
    rw [h2]
    intro hx
    exact hpost (List.append_eq_nil.mp hx).2
  have h4 : rstripWs (lstripWs pre ++ (mid ++ post)) =
      lstripWs pre ++ (mid ++ rstripWs post) := by
    rw [rstripWs_append _ h3 (lstripWs pre), h2]
  show containsSub needle (rstripWs (lstripWs (pre ++ (mid ++ post)))) = true
  rw [h1, h4]
  exact containsSub_append_left _ _
    (containsSub_append_left _ _ hc mid) (lstripWs pre)

/-- C7: for every current-date string, `build_digest` on the empty item
list returns a document containing the fallback theme phrase, the fallback
sector phrase and the fallback "no highlighted items" bullet; the embedding
is a total function, so the composition never raises. -/
theorem C7_build_digest_empty_fallbacks (today_str : String) :
    containsSub ("Genel piyasa akÄ±ÅŸÄ±").data
      (build_digest today_str []).data = true ∧
    containsSub ("SektÃ¶rel daÄŸÄ±lÄ±m net deÄŸil").data
      (build_digest today_str []).data = true ∧
    containsSub ("- (BugÃ¼n iÃ§in Ã¶ne Ã§Ä±kan baÅŸlÄ±k bulunamadÄ±)").data
      (build_digest today_str []).data = true := by
  have hb : (build_digest today_str []).data =
      stripWs (("\n### Borsa Ä°stanbul â€” GÃ¼nlÃ¼k Piyasa Ã–zeti (").data ++
        (today_str.data ++ digestEmptyTail.data)) := rfl
  rw [hb]
  refine ⟨?_, ?_, ?_⟩ <;>
    exact stripWs_append_contains _ _ _ _ (by decide) (by decide) (by decide)

theorem unescape_cons_of_ne (c : Char) (rest : List Char) (hc : ¬c = '&') :
    unescape (c :: rest) = c :: unescape rest :=
  unescape.eq_6 c rest (fun _ he _ => absurd he hc) (fun _ he _ => absurd he hc)
    (fun _ he _ => absurd he hc) (fun _ he _ => absurd he hc)

theorem unescape_no_amp : ∀ cs : List Char, '&' ∉ cs → unescape cs = cs := by
  intro cs
  induction cs with
  | nil => intro _; rfl
  | cons c rest ih =>
    intro h
    have hc : ¬c = '&' := fun he => h (he ▸ List.mem_cons_self _ _)
    have hr : '&' ∉ rest := fun hm => h (List.mem_cons_of_mem _ hm)
    rw [unescape_cons_of_ne c rest hc, ih hr]

theorem stripTagsGo_none_no_lt : ∀ cs : List Char, '<' ∉ cs →
    stripTagsGo none cs = cs := by
  intro cs
  induction cs with
  | nil => intro _; rfl
  | cons c rest ih =>
    intro h
    have hc : ¬c = '<' := fun he => h (he ▸ List.mem_cons_self _ _)
    have hr : '<' ∉ rest := fun hm => h (List.mem_cons_of_mem _ hm)
    simp only [stripTagsGo, if_neg hc]
    rw [ih hr]

theorem stripTags_no_lt (cs : List Char) (h : '<' ∉ cs) : stripTags cs = cs :=
  stripTagsGo_none_no_lt cs h

theorem mem_collapseGo : ∀ (cs : List Char) (b : Bool) (c : Char),
    c ∈ collapseGo b cs → c ∈ cs ∨ c = ' ' := by
  intro cs
  induction cs with
  | nil =>
    intro b c hc
    simp only [collapseGo] at hc
    cases hc
  | cons d rest ih =>
    intro b c hc
    cases hd : isSpaceCh d with
    | true =>
      cases b with
      | true =>
        simp only [collapseGo, hd, if_true] at hc
        rcases ih true c hc with h1 | h2
        · exact Or.inl (List.mem_cons_of_mem _ h1)
        · exact Or.inr h2
      | false =>
        simp only [collapseGo, hd, if_true] at hc
        rcases List.mem_cons.mp hc with he | ht
        · exact Or.inr he
        · rcases ih true c ht with h1 | h2
          · exact Or.inl (List.mem_cons_of_mem _ h1)
          · exact Or.inr h2
    | false =>
      simp only [collapseGo, hd, Bool.false_eq_true, if_false] at hc
      rcases List.mem_cons.mp hc with he | ht
      · exact Or.inl (he ▸ List.mem_cons_self _ _)
      · rcases ih false c ht with h1 | h2
        · exact Or.inl (List.mem_cons_of_mem _ h1)
        · exact Or.inr h2

theorem noTwoSp_tail (c : Char) (l : List Char) (h : noTwoSp (c :: l) = true) :
    noTwoSp l = true := by
  cases l with
  | nil => rfl
  | cons d r =>
    simp only [noTwoSp, Bool.and_eq_true] at h
    exact h.2

theorem noTwoSp_cons_of (c : Char) (l : List Char)
    (h1 : isSpaceCh c = false ∨ headNotSp l = true)
    (h2 : noTwoSp l = true) : noTwoSp (c :: l) = true := by
  cases l with
  | nil => rfl
  | cons d r =>
    simp only [noTwoSp, Bool.and_eq_true]
    refine ⟨?_, h2⟩
    rcases h1 with ha | hb
    · simp [ha]
    · have hd : isSpaceCh d = false := by simpa [headNotSp] using hb
      simp [hd]

theorem blankSp_subset (l l2 : List Char) (hsub : l2 ⊆ l)
    (h : blankSp l = true) : blankSp l2 = true := by
  simp only [blankSp, List.all_eq_true] at *
  intro c hc
  exact h c (hsub hc)

theorem headNotSp_lstripWs (l : List Char) : headNotSp (lstripWs l) = true := by
  induction l with
  | nil => rfl
  | cons c rest ih =>
    cases hc : isSpaceCh c with
    | true => simpa [lstripWs, List.dropWhile_cons, hc] using ih
    | false => simp [lstripWs, List.dropWhile_cons, hc, headNotSp]

theorem lstripWs_eq_self_of_headNotSp (l : List Char) (h : headNotSp l = true) :
    lstripWs l = l := by
  cases l with
  | nil => rfl
  | cons c rest =>
    have hc : isSpaceCh c = false := by simpa [headNotSp] using h
    simp [lstripWs, List.dropWhile_cons, hc]

theorem lstripWs_subset (l : List Char) : lstripWs l ⊆ l := by
  induction l with
  | nil => simp [lstripWs]
  | cons c rest ih =>
    cases hc : isSpaceCh c with
    | true =>
      intro d hd
      simp only [lstripWs, List.dropWhile_cons, hc, if_true] at hd
      exact List.mem_cons_of_mem _ (ih hd)
    | false => simp [lstripWs, List.dropWhile_cons, hc]

theorem noTwoSp_lstripWs (l : List Char) (h : noTwoSp l = true) :
    noTwoSp (lstripWs l) = true := by
  induction l with
  | nil => exact h
  | cons c rest ih =>
    cases hc : isSpaceCh c with
    | true =>
      simp only [lstripWs, List.dropWhile_cons, hc, if_true]
      exact ih (noTwoSp_tail c rest h)
    | false =>
      simpa [lstripWs, List.dropWhile_cons, hc] using h

theorem noTwoSp_append_left : ∀ l t : List Char,
    noTwoSp (l ++ t) = true → noTwoSp l = true := by
  intro l
  induction l with
  | nil => intro t _; rfl
  | cons c l2 ih =>
    intro t h
    cases l2 with
    | nil => rfl
    | cons d r =>
      simp only [List.cons_append, noTwoSp, Bool.and_eq_true] at h ⊢
      exact ⟨h.1, ih t (by simpa [List.cons_append] using h.2)⟩

theorem rstripWs_front : ∀ l : List Char, ∃ t, rstripWs l ++ t = l := by
  intro l
  induction l with
  | nil => exact ⟨[], rfl⟩
  | cons c rest ih =>
    cases hx : rstripWs rest with
    | nil =>
      cases hc : isSpaceCh c with
      | true => exact ⟨c :: rest, by simp [rstripWs, hx, hc]⟩
      | false =>
        refine ⟨rest, ?_⟩
        simp [rstripWs, hx, hc]
    | cons d r =>
      have hne : rstripWs rest ≠ [] := by simp [hx]
      rw [rstripWs_cons_of_ne c rest hne]
      obtain ⟨t, ht⟩ := ih
      exact ⟨t, by simp [ht]⟩

theorem headNotSp_rstripWs (l : List Char) (h : headNotSp l = true) :
    headNotSp (rstripWs l) = true := by
  cases l with
  | nil => exact h
  | cons c rest =>
    have hc : isSpaceCh c = false := by simpa [headNotSp] using h
    cases hx : rstripWs rest with
    | nil => simp [rstripWs, hx, hc, headNotSp]
    | cons d r =>
      rw [rstripWs_cons_of_ne c rest (by simp [hx])]
      simp [headNotSp, hc]

theorem rstripWs_idem : ∀ l : List Char, rstripWs (rstripWs l) = rstripWs l := by
  intro l
  induction l with
  | nil => rfl
  | cons c rest ih =>
    cases hx : rstripWs rest with
    | nil =>
      cases hc : isSpaceCh c with
      | true => simp [rstripWs, hx, hc]
      | false => simp [rstripWs, hx, hc]
    | cons d r =>
      have hne : rstripWs rest ≠ [] := by simp [hx]
      rw [hx] at ih
      rw [rstripWs_cons_of_ne c rest hne, hx,
        rstripWs_cons_of_ne c (d :: r) (by simp [ih]), ih]

theorem collapseGo_inv : ∀ cs : List Char,
    noTwoSp (collapseGo false cs) = true ∧ blankSp (collapseGo false cs) = true ∧
    noTwoSp (collapseGo true cs) = true ∧ blankSp (collapseGo true cs) = true ∧
    headNotSp (collapseGo true cs) = true := by
  intro cs
  induction cs with
  | nil =>
    refine ⟨?_, ?_, ?_, ?_, ?_⟩ <;> decide
  | cons c rest ih =>
    obtain ⟨i1, i2, i3, i4, i5⟩ := ih
    cases hc : isSpaceCh c with
    | true =>
      refine ⟨?_, ?_, ?_, ?_, ?_⟩
      · simp only [collapseGo, hc, if_true]
        exact noTwoSp_cons_of ' ' _ (Or.inr i5) i3
      · simp only [collapseGo, hc, if_true, blankSp, List.all_cons,
          Bool.and_eq_true]
        exact i4
      · simpa only [collapseGo, hc, if_true] using i3
      · simpa only [collapseGo, hc, if_true] using i4
      · simpa only [collapseGo, hc, if_true] using i5
    | false =>
      refine ⟨?_, ?_, ?_, ?_, ?_⟩
      · simp only [collapseGo, hc, Bool.false_eq_true, if_false]
        exact noTwoSp_cons_of c _ (Or.inl hc) i1
      · simp only [collapseGo, hc, Bool.false_eq_true, if_false, blankSp,
          List.all_cons, Bool.and_eq_true]
        exact ⟨by simp [hc], i2⟩
      · simp only [collapseGo, hc, Bool.false_eq_true, if_false]
        exact noTwoSp_cons_of c _ (Or.inl hc) i1
      · simp only [collapseGo, hc, Bool.false_eq_true, if_false, blankSp,
          List.all_cons, Bool.and_eq_true]
        exact ⟨by simp [hc], i2⟩
      · simp [collapseGo, hc, headNotSp]

theorem collapseGo_eq_self : ∀ l : List Char, noTwoSp l = true → blankSp l = true →
    collapseGo false l = l ∧ (headNotSp l = true → collapseGo true l = l) := by
  intro l
  induction l with
  | nil => exact fun _ _ => ⟨rfl, fun _ => rfl⟩
  | cons c rest ih =>
    intro hn hb
    simp only [blankSp, List.all_cons, Bool.and_eq_true] at hb
    obtain ⟨hbc, hbr⟩ := hb
    have hnr := noTwoSp_tail c rest hn
    obtain ⟨ih1, ih2⟩ := ih hnr (by simpa [blankSp] using hbr)
    constructor
    · cases hc : isSpaceCh c with
      | true =>
        have hceq : c = ' ' := by
          rw [hc] at hbc
          simpa using hbc
        have hhr : headNotSp rest = true := by
          cases rest with
          | nil => rfl
          | cons d r =>
            simp only [noTwoSp, Bool.and_eq_true] at hn
            have h1 := hn.1
            rw [hc] at h1
            simp only [Bool.true_and, Bool.not_eq_eq_eq_not, Bool.not_true] at h1
            simp [headNotSp, h1]
        simp only [collapseGo, hc, if_true]
        rw [ih2 hhr, hceq]
        simp
      | false =>
        simp only [collapseGo, hc, Bool.false_eq_true, if_false]
        rw [ih1]
    · intro hh
      have hc : isSpaceCh c = false := by simpa [headNotSp] using hh
      simp only [collapseGo, hc, Bool.false_eq_true, if_false]
      rw [ih1]

theorem strip_collapse_idem (x : List Char) :
    stripWs (collapseWs (stripWs (collapseWs x))) = stripWs (collapseWs x) := by
  obtain ⟨n0, b0, -, -, -⟩ := collapseGo_inv x
  have hn1 : noTwoSp (lstripWs (collapseWs x)) = true := noTwoSp_lstripWs _ n0
  have hb1 : blankSp (lstripWs (collapseWs x)) = true :=
    blankSp_subset _ _ (lstripWs_subset _) b0
  have hh1 : headNotSp (lstripWs (collapseWs x)) = true := headNotSp_lstripWs _
  obtain ⟨t, ht⟩ := rstripWs_front (lstripWs (collapseWs x))
  have hn2 : noTwoSp (rstripWs (lstripWs (collapseWs x))) = true := by
    apply noTwoSp_append_left _ t
    rw [ht]
    exact hn1
  have hb2 : blankSp (rstripWs (lstripWs (collapseWs x))) = true :=
    blankSp_subset _ _ (fun c hc => ht ▸ List.mem_append.mpr (Or.inl hc)) hb1
  have hh2 : headNotSp (rstripWs (lstripWs (collapseWs x))) = true :=
    headNotSp_rstripWs _ hh1
  have hcol : collapseWs (stripWs (collapseWs x)) = stripWs (collapseWs x) :=
    (collapseGo_eq_self _ hn2 hb2).1
  rw [hcol]
  show rstripWs (lstripWs (rstripWs (lstripWs (collapseWs x)))) = _
  rw [lstripWs_eq_self_of_headNotSp _ hh2, rstripWs_idem]
  rfl

/-- C5 counterexample: `clean_text` is not idempotent, because HTML entity
references are decoded again on a second pass: `clean_text "&amp;amp;"` is
`"&amp;"`, whose `clean_text` is `"&"`. -/
theorem C5_clean_text_counterexample :
    clean_text (clean_text "&amp;amp;") ≠ clean_text "&amp;amp;" := by decide

theorem contains_eq_false_of_not_mem {y : List Char} {a : Char} (h : a ∉ y) :
    y.contains a = false := by
  cases hc : y.contains a with
  | false => rfl
  | true => exact absurd (List.elem_iff.mp hc) h

theorem not_mem_of_bnot_contains {y : List Char} {a : Char}
    (h : (!(y.contains a)) = true) : a ∉ y := by
  intro hm
  have hc : y.contains a = true := List.elem_iff.mpr hm
  rw [hc] at h
  simp at h

theorem tagFree_lt_of_no_gt (y : List Char) (hy : '>' ∉ y) :
    tagFree ('<' :: y) = true := by
  cases y with
  | nil => decide
  | cons c ys =>
    rw [tagFree.eq_3 (c :: ys)
      (fun r1 hr => hy (by rw [hr]; exact List.mem_cons_self _ _))]
    rw [contains_eq_false_of_not_mem hy]
    rfl

theorem stripTagsGo_flush : ∀ (rest b : List Char), '>' ∉ rest →
    stripTagsGo (some b) rest = '<' :: (b.reverse ++ rest) := by
  intro rest
  induction rest with
  | nil => intro b _; simp [stripTagsGo]
  | cons c rest ih =>
    intro b h
    have hc : ¬c = '>' := fun he => h (he ▸ List.mem_cons_self _ _)
    have hr : '>' ∉ rest := fun hm => h (List.mem_cons_of_mem _ hm)
    simp only [stripTagsGo, if_neg hc]
    rw [ih (c :: b) hr]
    simp [List.reverse_cons, List.append_assoc]

theorem tagFree_correct : ∀ l : List Char, tagFree l = true → stripTags l = l := by
  intro l
  induction l using tagFree.induct with
  | case1 => intro _; rfl
  | case2 rest ih =>
    intro h
    rw [tagFree.eq_2] at h
    have ihr : stripTagsGo none rest = rest := ih h
    show stripTagsGo none ('<' :: '>' :: rest) = _
    rw [show stripTagsGo none ('<' :: '>' :: rest) =
      '<' :: '>' :: stripTagsGo none rest from rfl, ihr]
  | case3 rest hne =>
    intro h
    rw [tagFree.eq_3 rest hne] at h
    have hgt : '>' ∉ rest := not_mem_of_bnot_contains h
    show stripTagsGo none ('<' :: rest) = _
    rw [show stripTagsGo none ('<' :: rest) = stripTagsGo (some []) rest from rfl,
      stripTagsGo_flush rest [] hgt]
    simp
  | case4 c rest hne1 hne2 ih =>
    intro h
    rw [tagFree.eq_4 c rest hne1 hne2] at h
    have hc : ¬c = '<' := fun he => hne2 he
    have ihr : stripTagsGo none rest = rest := ih h
    show stripTagsGo none (c :: rest) = _
    simp only [stripTagsGo, if_neg hc]
    rw [ihr]

theorem tagFree_stripTagsGo : ∀ l : List Char,
    tagFree (stripTagsGo none l) = true ∧
    ∀ b, '>' ∉ b → tagFree (stripTagsGo (some b) l) = true := by
  intro l
  induction l with
  | nil =>
    refine ⟨by decide, ?_⟩
    intro b hb
    show tagFree ('<' :: b.reverse) = true
    apply tagFree_lt_of_no_gt
    intro hm
    exact hb (List.mem_reverse.mp hm)
  | cons c rest ih =>
    obtain ⟨ih1, ih2⟩ := ih
    constructor
    · by_cases hc : c = '<'
      · subst hc
        rw [show stripTagsGo none ('<' :: rest) = stripTagsGo (some []) rest
          from rfl]
        exact ih2 [] (by simp)
      · simp only [stripTagsGo, if_neg hc]
        rw [tagFree.eq_4 c _ (fun r h1 _ => hc h1) (fun h1 => hc h1)]
        exact ih1
    · intro b hb
      by_cases hc : c = '>'
      · subst hc
        cases b with
        | nil =>
          rw [show stripTagsGo (some []) ('>' :: rest) =
            '<' :: '>' :: stripTagsGo none rest from rfl, tagFree.eq_2]
          exact ih1
        | cons d bs =>
          rw [show stripTagsGo (some (d :: bs)) ('>' :: rest) =
            ' ' :: stripTagsGo none rest from rfl,
            tagFree.eq_4 ' ' _ (fun r h1 _ => absurd h1 (by decide))
            (fun h1 => absurd h1 (by decide))]
          exact ih1
      · simp only [stripTagsGo, if_neg hc]
        refine ih2 (c :: b) ?_
        intro hm
        rcases List.mem_cons.mp hm with he | ht
        · exact hc he.symm
        · exact hb ht

theorem tagFree_stripTags (cs : List Char) : tagFree (stripTags cs) = true :=
  (tagFree_stripTagsGo cs).1

theorem mem_stripTagsGo : ∀ (l : List Char) (buf : Option (List Char)) (c : Char),
    c ∈ stripTagsGo buf l →
      c ∈ l ∨ c = ' ' ∨
        c ∈ (match buf with | none => ([] : List Char) | some b => '<' :: b) := by
  intro l
  induction l with
  | nil =>
    intro buf c hc
    cases buf with
    | none =>
      simp only [stripTagsGo] at hc
      cases hc
    | some b =>
      simp only [stripTagsGo] at hc
      rcases List.mem_cons.mp hc with he | ht
      · exact Or.inr (Or.inr (he ▸ List.mem_cons_self _ _))
      · exact Or.inr (Or.inr (List.mem_cons_of_mem _ (List.mem_reverse.mp ht)))
  | cons d rest ih =>
    intro buf c hc
    cases buf with
    | none =>
      by_cases hd : d = '<'
      · subst hd
        simp only [stripTagsGo, if_pos rfl] at hc
        rcases ih (some []) c hc with h1 | h2 | h3
        · exact Or.inl (List.mem_cons_of_mem _ h1)
        · exact Or.inr (Or.inl h2)
        · rcases List.mem_cons.mp h3 with he | hn
          · exact Or.inl (he ▸ List.mem_cons_self _ _)
          · cases hn
      · simp only [stripTagsGo, if_neg hd] at hc
        rcases List.mem_cons.mp hc with he | ht
        · exact Or.inl (he ▸ List.mem_cons_self _ _)
        · rcases ih none c ht with h1 | h2 | h3
          · exact Or.inl (List.mem_cons_of_mem _ h1)
          · exact Or.inr (Or.inl h2)
          · cases h3
    | some b =>
      by_cases hd : d = '>'
      · subst hd
        cases b with
        | nil =>
          simp only [stripTagsGo, if_pos rfl] at hc
          rcases List.mem_cons.mp hc with he | ht
          · exact Or.inr (Or.inr (he ▸ List.mem_cons_self _ _))
          · rcases List.mem_cons.mp ht with he2 | ht2
            · exact Or.inl (he2 ▸ List.mem_cons_self _ _)
            · rcases ih none c ht2 with h1 | h2 | h3
              · exact Or.inl (List.mem_cons_of_mem _ h1)
              · exact Or.inr (Or.inl h2)
              · cases h3
        | cons e bs =>
          simp only [stripTagsGo, if_pos rfl] at hc
          rcases List.mem_cons.mp hc with he | ht
          · exact Or.inr (Or.inl he)
          · rcases ih none c ht with h1 | h2 | h3
            · exact Or.inl (List.mem_cons_of_mem _ h1)
            · exact Or.inr (Or.inl h2)
            · cases h3
      · simp only [stripTagsGo, if_neg hd] at hc
        rcases ih (some (d :: b)) c hc with h1 | h2 | h3
        · exact Or.inl (List.mem_cons_of_mem _ h1)
        · exact Or.inr (Or.inl h2)
        · rcases List.mem_cons.mp h3 with he | hn
          · exact Or.inr (Or.inr (he ▸ List.mem_cons_self _ _))
          · rcases List.mem_cons.mp hn with he2 | hn2
            · exact Or.inl (he2 ▸ List.mem_cons_self _ _)
            · exact Or.inr (Or.inr (List.mem_cons_of_mem _ hn2))

theorem tagFree_collapseGo : ∀ l : List Char, tagFree l = true →
    ∀ b, tagFree (collapseGo b l) = true := by
  intro l
  induction l using tagFree.induct with
  | case1 => intro _ b; rfl
  | case2 rest ih =>
    intro h b
    rw [tagFree.eq_2] at h
    have h1 : isSpaceCh '<' = false := by decide
    have h2 : isSpaceCh '>' = false := by decide
    simp only [collapseGo, h1, h2, Bool.false_eq_true, if_false]
    rw [tagFree.eq_2]
    exact ih h false
  | case3 rest hne =>
    intro h b
    rw [tagFree.eq_3 rest hne] at h
    have hgt : '>' ∉ rest := not_mem_of_bnot_contains h
    have h1 : isSpaceCh '<' = false := by decide
    simp only [collapseGo, h1, Bool.false_eq_true, if_false]
    apply tagFree_lt_of_no_gt
    intro hm
    rcases mem_collapseGo rest false '>' hm with hx | hx
    · exact hgt hx
    · exact absurd hx (by decide)
  | case4 c rest hne1 hne2 ih =>
    intro h b
    rw [tagFree.eq_4 c rest hne1 hne2] at h
    cases hna : isSpaceCh c with
    | true =>
      cases b with
      | true =>
        simp only [collapseGo, hna, if_true]
        exact ih h true
      | false =>
        simp only [collapseGo, hna, if_true, Bool.false_eq_true, if_false]
        rw [tagFree.eq_4 ' ' _ (fun r h1 _ => absurd h1 (by decide))
          (fun h1 => absurd h1 (by decide))]
        exact ih h true
    | false =>
      simp only [collapseGo, hna, Bool.false_eq_true, if_false]
      rw [tagFree.eq_4 c _ (fun r h1 _ => hne2 h1) (fun h1 => hne2 h1)]
      exact ih h false

theorem tagFree_lstripWs : ∀ l : List Char, tagFree l = true →
    tagFree (lstripWs l) = true := by
  intro l
  induction l with
  | nil => intro h; exact h
  | cons c rest ih =>
    intro h
    cases hc : isSpaceCh c with
    | true =>
      have hcl : ¬c = '<' := by
        intro he
        subst he
        exact absurd hc (by decide)
      rw [tagFree.eq_4 c rest (fun r h1 _ => hcl h1) (fun h1 => hcl h1)] at h
      simp only [lstripWs, List.dropWhile_cons, hc, if_true]
      exact ih h
    | false =>
      simpa [lstripWs, List.dropWhile_cons, hc] using h

theorem tagFree_front : ∀ l : List Char, tagFree l = true →
    ∀ p t : List Char, p ++ t = l → tagFree p = true := by
  intro l
  induction l using tagFree.induct with
  | case1 =>
    intro _ p t hpt
    rcases List.append_eq_nil.mp hpt with ⟨rfl, _⟩
    rfl
  | case2 rest ih =>
    intro h p t hpt
    rw [tagFree.eq_2] at h
    cases p with
    | nil => rfl
    | cons a p2 =>
      rw [List.cons_append] at hpt
      injection hpt with ha hrest
      subst ha
      cases p2 with
      | nil => decide
      | cons a2 p3 =>
        rw [List.cons_append] at hrest
        injection hrest with ha2 hrest2
        subst ha2
        rw [tagFree.eq_2]
        exact ih h p3 t hrest2
  | case3 rest hne =>
    intro h p t hpt
    rw [tagFree.eq_3 rest hne] at h
    have hgt : '>' ∉ rest := not_mem_of_bnot_contains h
    cases p with
    | nil => rfl
    | cons a p2 =>
      rw [List.cons_append] at hpt
      injection hpt with ha hrest
      subst ha
      apply tagFree_lt_of_no_gt
      intro hm
      exact hgt (hrest ▸ List.mem_append.mpr (Or.inl hm))
  | case4 c rest hne1 hne2 ih =>
    intro h p t hpt
    rw [tagFree.eq_4 c rest hne1 hne2] at h
    cases p with
    | nil => rfl
    | cons a p2 =>
      rw [List.cons_append] at hpt
      injection hpt with ha hrest
      rw [tagFree.eq_4 a p2 (fun r h1 _ => hne2 (ha.symm.trans h1))
        (fun h1 => hne2 (ha.symm.trans h1))]
      exact ih h p2 t hrest

theorem tagFree_rstripWs (l : List Char) (h : tagFree l = true) :
    tagFree (rstripWs l) = true := by
  obtain ⟨t, ht⟩ := rstripWs_front l
  exact tagFree_front l h (rstripWs l) t ht

/-- C5 amended: `clean_text` is idempotent on every string that contains no
`&`: with no entity reference to re-decode, the tag stripping never finds a
match on its own output (every surviving `<` is either an unclosed trailing
candidate or part of a `<>`, which `<[^>]+>` cannot match), and whitespace
collapsing and stripping are idempotent.  In general idempotence fails, by
the counterexample. -/
theorem C5_clean_text_idempotent_amended (s : String)
    (h1 : '&' ∉ s.data) :
    clean_text (clean_text s) = clean_text s := by
  have e1 : unescape s.data = s.data := unescape_no_amp s.data h1
  have hc : clean_text s = ⟨stripWs (collapseWs (stripTags s.data))⟩ := by
    unfold clean_text
    rw [e1]
  have hdata : (clean_text s).data = stripWs (collapseWs (stripTags s.data)) := by
    rw [hc]
  have hmem : ∀ c, c ∈ (clean_text s).data → c ∈ s.data ∨ c = ' ' := by
    intro c hcm
    rw [hdata] at hcm
    obtain ⟨t, ht⟩ := rstripWs_front (lstripWs (collapseWs (stripTags s.data)))
    have h3 : c ∈ lstripWs (collapseWs (stripTags s.data)) :=
      ht ▸ List.mem_append.mpr (Or.inl hcm)
    have h4 : c ∈ collapseWs (stripTags s.data) := lstripWs_subset _ h3
    rcases mem_collapseGo (stripTags s.data) false c h4 with h5 | h5
    · rcases mem_stripTagsGo s.data none c h5 with h6 | h6 | h6
      · exact Or.inl h6
      · exact Or.inr h6
      · cases h6
    · exact Or.inr h5
  have h1a : '&' ∉ (clean_text s).data := by
    intro hm
    rcases hmem '&' hm with hx | hx
    · exact h1 hx
    · exact absurd hx (by decide)
  have e1a : unescape (clean_text s).data = (clean_text s).data :=
    unescape_no_amp _ h1a
  have htf : tagFree (clean_text s).data = true := by
    rw [hdata]
    exact tagFree_rstripWs _ (tagFree_lstripWs _
      (tagFree_collapseGo _ (tagFree_stripTags s.data) false))
  have e2a : stripTags (clean_text s).data = (clean_text s).data :=
    tagFree_correct _ htf
  show (⟨stripWs (collapseWs (stripTags (unescape (clean_text s).data)))⟩ :
    String) = clean_text s
  rw [e1a, e2a, hdata, hc]
  exact congrArg String.mk (strip_collapse_idem (stripTags s.data))

theorem C5_clean_text_idempotent_amended_witness :
    '&' ∉ ("a <b> c" : String).data ∧
    clean_text (clean_text "a <b> c") = clean_text "a <b> c" :=
  ⟨by decide, C5_clean_text_idempotent_amended "a <b> c" (by decide)⟩
